import Mathlib

/-! # siview: path confinement and the two request handlers

A shallow embedding of `server/main.go`.  Go strings are byte sequences; the
only bytes the program inspects are `/` and `.`, both single bytes that never
occur inside a multi-byte UTF-8 sequence, so a string is modelled as a list of
characters.  The functions of Go's `path/filepath` package (Unix build) that
`safePath` calls are embedded from the library source: `Clean`, `Join`,
`HasPrefix`; so is the part of `net/http` the `/file/` route runs through: the
`DefaultServeMux`, `StripPrefix`, `FileServer` and `Dir.Open`.
-/

namespace Siview

/-! ## Go standard library: `os`, `strings`, `path/filepath` (Unix) -/

deriving instance DecidableEq for Except

/-- Go `filepath.Separator` on Unix. -/
def Separator : Char := '/'

/-- Go `os.IsPathSeparator` on Unix: `PathSeparator == c`. -/
def IsPathSeparator (c : Char) : Bool := c == Separator

/-- Go `lazybuf` of `path/filepath`: the output buffer of `Clean`.  The bytes
written so far are `buf[:w]`; bytes at positions `≥ w` are stale. -/
structure lazybuf where
  buf : List Char
  w : Nat
deriving DecidableEq, Repr

/-- Go `(*lazybuf).index`. -/
def lazybuf.index (b : lazybuf) (i : Nat) : Char := b.buf.getD i default

/-- Go `(*lazybuf).append`: write `c` at position `w` and advance `w`. -/
def lazybuf.append (b : lazybuf) (c : Char) : lazybuf :=
  { buf := b.buf.take b.w ++ [c], w := b.w + 1 }

/-- Go `(*lazybuf).string`: the written prefix `buf[:w]`. -/
def lazybuf.string (b : lazybuf) : List Char := b.buf.take b.w

/-- The inner loop of the `..` case of `Clean`, run after `out.w--`:
`for out.w > dotdot && !os.IsPathSeparator(out.index(out.w)) { out.w-- }`.
The argument is the current `out.w`; the result is the final `out.w`. -/
def backtrackLoop (out : lazybuf) (dotdot : Nat) : Nat → Nat
  | 0 => 0
  | w + 1 =>
    if w + 1 > dotdot && !IsPathSeparator (out.index (w + 1)) then
      backtrackLoop out dotdot w
    else w + 1

/-- The copy loop of the default case of `Clean`:
`for ; r < n && !os.IsPathSeparator(path[r]); r++ { out.append(path[r]) }`.
The first component is the unread rest `path[r:]`. -/
def copyElement : List Char → lazybuf → List Char × lazybuf
  | [], out => ([], out)
  | c :: rest, out =>
    if IsPathSeparator c then (c :: rest, out) else copyElement rest (out.append c)

/-- The main loop `for r < n { switch ... }` of `Clean`.  The unread input
`path[r:]` is the list argument; every iteration reads at least one byte, so
`fuel = len(path)` iterations are enough. The result is `out`. -/
def cleanLoop (rooted : Bool) : Nat → List Char → lazybuf → Nat → lazybuf
  | 0, _, out, _ => out
  | _ + 1, [], out, _ => out
  | fuel + 1, c :: t, out, dotdot =>
    if IsPathSeparator c then
      -- empty path element
      cleanLoop rooted fuel t out dotdot
    else if c == '.' && (t.isEmpty || IsPathSeparator (t.headD default)) then
      -- . element
      cleanLoop rooted fuel t out dotdot
    else if c == '.' && t.headD default == '.'
        && (t.tail.isEmpty || IsPathSeparator (t.tail.headD default)) then
      -- .. element: remove to last separator
      if out.w > dotdot then
        -- can backtrack
        cleanLoop rooted fuel t.tail
          { out with w := backtrackLoop out dotdot (out.w - 1) } dotdot
      else if !rooted then
        -- cannot backtrack, but not rooted, so append .. element
        let out1 := if out.w > 0 then out.append Separator else out
        let out2 := (out1.append '.').append '.'
        cleanLoop rooted fuel t.tail out2 out2.w
      else
        cleanLoop rooted fuel t.tail out dotdot
    else
      -- real path element; add slash if needed, then copy element
      let out1 :=
        if (rooted && out.w != 1) || (!rooted && out.w != 0) then out.append Separator
        else out
      let r := copyElement (c :: t) out1
      cleanLoop rooted fuel r.1 r.2 dotdot

/-- Go `filepath.Clean` (Unix: no volume name, `FromSlash` is the identity). -/
def Clean (path : List Char) : List Char :=
  match path with
  | [] => ['.']
  | c :: rest =>
    let rooted := IsPathSeparator c
    let out0 : lazybuf := { buf := [], w := 0 }
    let out :=
      if rooted then cleanLoop rooted (c :: rest).length rest (out0.append Separator) 1
      else cleanLoop rooted (c :: rest).length (c :: rest) out0 0
    -- Turn empty string into "."
    let out := if out.w == 0 then out.append '.' else out
    out.string

/-- Go `strings.Join(elems, sep)`. -/
def stringsJoin (elems : List (List Char)) (sep : List Char) : List Char :=
  sep.intercalate elems

/-- Go `filepath.Join` (Unix): the first non-empty element and everything after
it are joined with the separator and cleaned; all-empty gives `""`. -/
def Join : List (List Char) → List Char
  | [] => []
  | e :: rest => if e ≠ [] then Clean (stringsJoin (e :: rest) [Separator]) else Join rest

/-- Go `strings.HasPrefix`: `len(s) >= len(prefix) && s[:len(prefix)] == prefix`. -/
def stringsHasPrefix (s pre : List Char) : Bool :=
  decide (s.length ≥ pre.length) && s.take pre.length == pre

/-- Go `filepath.HasPrefix` (Unix): `strings.HasPrefix(p, prefix)`. -/
def HasPrefix (p pre : List Char) : Bool := stringsHasPrefix p pre

/-! ## `server/main.go` -/

/-- The errors `safePath` can return. -/
inductive GoError where
  | ErrPermission
deriving DecidableEq, Repr

/-- Go `safePath` of `main.go`; the package variable `root` is a parameter. -/
def safePath (root rel : List Char) : Except GoError (List Char) :=
  let p := Clean (Separator :: rel)
  let full := Join [root, p]
  if !HasPrefix full root then .error GoError.ErrPermission
  else .ok full

/-- Go `Entry` of `main.go`: one element of the JSON array. -/
structure Entry where
  Name : String
  IsDir : Bool
  Size : Int
deriving DecidableEq, Repr

/-- Go `fs.FileInfo`, as far as `listHandler` uses it: `Size()`, an `int64`. -/
structure FileInfo where
  Size : Int
deriving DecidableEq, Repr

/-- Go `fs.DirEntry` as `os.ReadDir` returns it: `Name()`, `IsDir()` and the
result of `Info()`, which on Unix is a later `lstat` of the child and fails
when the child has been removed or renamed since the directory read. -/
structure DirEntry where
  Name : String
  IsDir : Bool
  Info : Except String FileInfo
deriving DecidableEq, Repr

/-- The filesystem state a request observes: the result of `os.ReadDir` on
every path. -/
structure FileSystem where
  ReadDir : List Char → Except String (List DirEntry)

/-- What a handler writes as the response body. -/
inductive Body where
  | text (msg : String)
  | json (entries : List Entry)
deriving DecidableEq, Repr

/-- An HTTP response: status code, `Content-Type` header and body. -/
structure Response where
  status : Nat
  contentType : String
  body : Body
deriving DecidableEq, Repr

/-- How a run of a handler ends: with a response, or with the run-time panic of
a method call on a nil interface value. -/
inductive Outcome where
  | responded (r : Response)
  | nilDereference
deriving DecidableEq, Repr

/-- A run of `listHandler`: the directories handed to `os.ReadDir`, in order,
and how the run ended. -/
structure Run where
  reads : List (List Char)
  outcome : Outcome
deriving DecidableEq, Repr

/-- Go `http.StatusBadRequest`. -/
def StatusBadRequest : Nat := 400

/-- Go `http.StatusNotFound`. -/
def StatusNotFound : Nat := 404

/-- Go `http.StatusOK`, the status of a response whose body is written without
an explicit `WriteHeader`. -/
def StatusOK : Nat := 200

/-- Go `http.Error(w, msg, code)`: a plain-text response with status `code`
whose body is the line `msg`. -/
def httpError (msg : String) (code : Nat) : Response :=
  { status := code, contentType := "text/plain; charset=utf-8", body := Body.text msg }

/-- The loop `for _, e := range entries { info, _ := e.Info(); out = append(out, Entry{...}) }`
of `listHandler`.  The error of `e.Info()` is discarded; when it is non-nil
`info` is nil and `info.Size()` panics, which is the `none` result. -/
def entryLoop : List DirEntry → List Entry → Option (List Entry)
  | [], out => some out
  | e :: es, out =>
    match e.Info with
    | .error _ => none
    | .ok info => entryLoop es (out ++ [{ Name := e.Name, IsDir := e.IsDir, Size := info.Size }])

/-- Go `listHandler` of `main.go`; `rel` is `r.URL.Query().Get("path")`. -/
def listHandler (root : List Char) (fs : FileSystem) (rel : List Char) : Run :=
  match safePath root rel with
  | .error _ => { reads := [], outcome := .responded (httpError "invalid path" StatusBadRequest) }
  | .ok full =>
    match fs.ReadDir full with
    | .error err => { reads := [full], outcome := .responded (httpError err StatusNotFound) }
    | .ok entries =>
      match entryLoop entries [] with
      | none => { reads := [full], outcome := .nilDereference }
      | some out =>
        { reads := [full],
          outcome := .responded
            { status := StatusOK, contentType := "application/json", body := Body.json out } }

/-- Go `strings.TrimPrefix`. -/
def stringsTrimPrefix (s pre : List Char) : List Char :=
  if stringsHasPrefix s pre then s.drop pre.length else s

/-- Go `http.StripPrefix(prefix, h)` applied to a request with URL path
`urlPath` (and empty `RawPath`): `h` serves the trimmed path when the prefix
was present, otherwise the reply is `NotFound`. -/
def StripPrefix {α : Type} (pre : List Char) (h : List Char → α) (notFound : α)
    (urlPath : List Char) : α :=
  if pre = [] then h urlPath
  else
    let p := stringsTrimPrefix urlPath pre
    if p.length < urlPath.length then h p else notFound

/-- Go `strings.HasSuffix`: `len(s) >= len(suffix) && s[len(s)-len(suffix):] == suffix`. -/
def stringsHasSuffix (s suf : List Char) : Bool :=
  decide (s.length ≥ suf.length) && s.drop (s.length - suf.length) == suf

/-- Go `strings.TrimSuffix`. -/
def stringsTrimSuffix (s suf : List Char) : List Char :=
  if stringsHasSuffix s suf then s.take (s.length - suf.length) else s

/-- Go `cleanPath` of `net/http`: the canonical form of a request path, with
the trailing slash that `path.Clean` removes put back.  `path.Clean` is the
algorithm of `filepath.Clean` with the separator `/`. -/
def cleanPath (p : List Char) : List Char :=
  if p = [] then [Separator]
  else
    let p1 := if p.head? = some Separator then p else Separator :: p
    let np := Clean p1
    if p1.getLast? = some Separator ∧ np ≠ [Separator] then
      if p1.length = np.length + 1 ∧ stringsHasPrefix p1 np = true then p1
      else np ++ [Separator]
    else np

/-- Where the `DefaultServeMux` sends a request. -/
inductive Route where
  | moved (location : List Char)
  | list
  | file
  | notFound
deriving DecidableEq, Repr

/-- Go `(*ServeMux).Handler` for a request that is not a `CONNECT`, on the mux
`main` fills with the patterns `/api/list` and `/file/`: a path without the
trailing slash of a registered subtree, and a path that is not in canonical
form, are answered with a 301 redirect and no handler runs. -/
def muxRoute (urlPath : List Char) : Route :=
  let path := cleanPath urlPath
  if path = "/file".toList then .moved "/file/".toList
  else if path ≠ urlPath then .moved path
  else if urlPath = "/api/list".toList then .list
  else if stringsHasPrefix urlPath "/file/".toList then .file
  else .notFound

/-- The result of `os.Open` on a path, as far as `http.FileServer` looks at
it: the open fails, or it succeeds and `Stat` then fails (`none`) or tells
whether the file is a directory. -/
inductive OpenResult where
  | failed
  | opened (stat : Option Bool)
deriving DecidableEq, Repr

/-- The filesystem state a Fetch request observes: the result of `os.Open`
on every path. -/
structure OpenFS where
  Open : List Char → OpenResult

/-- What a Fetch request is answered with: a redirect, an error response, the
content of a file, the listing of a directory, or the reply of another
handler of the mux. -/
inductive FetchResult where
  | redirected
  | failed
  | served (file : List Char)
  | listed (dir : List Char)
  | elsewhere
deriving DecidableEq, Repr

/-- A run of the Fetch route: the paths handed to `os.Open`, in order, and the
answer. -/
structure FetchRun where
  opens : List (List Char)
  result : FetchResult
deriving DecidableEq, Repr

/-- Go `indexPage` of `net/http`. -/
def indexPage : List Char := "/index.html".toList

/-- Go `http.Dir(dir).Open(name)` on Unix: the path handed to `os.Open`,
`filepath.Join(dir, filepath.FromSlash(path.Clean("/"+name)))`. -/
def DirOpen (dir name : List Char) : List Char :=
  Join [if dir = [] then ['.'] else dir, Clean (Separator :: name)]

/-- Go `serveFile(w, r, fs, name, true)` of `net/http` over `http.Dir(dir)`,
with `urlPath` the `r.URL.Path` it sees (conditional-request headers aside):
`.../index.html` is redirected; the named file is opened; a directory without
and a file with a trailing slash are redirected; for a directory `index.html`
under it is opened and served when it can be, the directory is listed
otherwise. -/
def serveFile (fs : OpenFS) (dir urlPath name : List Char) : FetchRun :=
  if stringsHasSuffix urlPath indexPage then { opens := [], result := .redirected }
  else
    let fullName := DirOpen dir name
    match fs.Open fullName with
    | .failed => { opens := [fullName], result := .failed }
    | .opened none => { opens := [fullName], result := .failed }
    | .opened (some isDir) =>
      let endsInSlash : Bool := urlPath.getLast? == some Separator
      if isDir && !endsInSlash then { opens := [fullName], result := .redirected }
      else if !isDir && endsInSlash then { opens := [fullName], result := .redirected }
      else if isDir then
        let index := stringsTrimSuffix name [Separator] ++ indexPage
        let fullIndex := DirOpen dir index
        match fs.Open fullIndex with
        | .opened (some indexIsDir) =>
          { opens := [fullName, fullIndex],
            result := if indexIsDir then .listed fullIndex else .served fullIndex }
        | _ => { opens := [fullName, fullIndex], result := .listed fullName }
      else { opens := [fullName], result := .served fullName }

/-- Go `http.FileServer(http.Dir(root))` serving a request whose URL path is
`urlPath`: a leading slash is added when missing and the file named by the
cleaned path is served. -/
def FileServer (root : List Char) (fs : OpenFS) (urlPath : List Char) : FetchRun :=
  let upath := if stringsHasPrefix urlPath [Separator] then urlPath else Separator :: urlPath
  serveFile fs root upath (Clean upath)

/-- The Fetch part of the server `main` starts: a `GET` request with URL path
`urlPath` goes through the `DefaultServeMux`; on the pattern `/file/` it is
served by `http.StripPrefix("/file/", http.FileServer(http.Dir(root)))`. -/
def fetch (root : List Char) (fs : OpenFS) (urlPath : List Char) : FetchRun :=
  match muxRoute urlPath with
  | .moved _ => { opens := [], result := .redirected }
  | .notFound => { opens := [], result := .failed }
  | .list => { opens := [], result := .elsewhere }
  | .file =>
    StripPrefix "/file/".toList (FileServer root fs) { opens := [], result := .failed } urlPath

/-- A filesystem state in which `/srv/data` is a directory that holds the files
`index.html` and `notes.txt`, and nothing else can be opened. -/
def indexFS : OpenFS :=
  { Open := fun path =>
      if path = "/srv/data".toList then .opened (some true)
      else if path = "/srv/data/index.html".toList then .opened (some false)
      else if path = "/srv/data/notes.txt".toList then .opened (some false)
      else .failed }

/-- The entry that reports the child `c`: its name, its is-directory flag and
the size its metadata gives. -/
def entryOf (c : DirEntry) : Entry :=
  { Name := c.Name, IsDir := c.IsDir,
    Size := match c.Info with
      | .ok info => info.Size
      | .error _ => 0 }

/-- A filesystem state in which no path is a readable directory. -/
def missingFS : FileSystem :=
  { ReadDir := fun _ => .error "no such file or directory" }

/-- A filesystem state in which `/srv/data` holds the single child `notes.txt`,
removed between the directory read and the metadata lookup. -/
def vanishedFS : FileSystem :=
  { ReadDir := fun path =>
      if path = "/srv/data".toList then
        .ok [{ Name := "notes.txt", IsDir := false,
               Info := .error "lstat /srv/data/notes.txt: no such file or directory" }]
      else .error "no such file or directory" }

/-- A filesystem state in which `/srv/data` holds the 42-byte file `notes.txt`
and a child `tmp` that is removed before its metadata lookup. -/
def racingFS : FileSystem :=
  { ReadDir := fun path =>
      if path = "/srv/data".toList then
        .ok [{ Name := "notes.txt", IsDir := false, Info := .ok { Size := 42 } },
             { Name := "tmp", IsDir := true,
               Info := .error "lstat /srv/data/tmp: no such file or directory" }]
      else .error "no such file or directory" }

/-- A filesystem state in which `/srv/data` holds the 42-byte file `notes.txt`
and the subdirectory `docs`. -/
def sampleFS : FileSystem :=
  { ReadDir := fun path =>
      if path = "/srv/data".toList then
        .ok [{ Name := "notes.txt", IsDir := false, Info := .ok { Size := 42 } },
             { Name := "docs", IsDir := true, Info := .ok { Size := 4096 } }]
      else .error "no such file or directory" }

/-! ## Specification vocabulary -/

/-- A path is absolute when its first byte is the separator. -/
def IsAbs (path : List Char) : Prop := path.head? = some Separator

instance instDecidableIsAbs (path : List Char) : Decidable (IsAbs path) :=
  inferInstanceAs (Decidable (path.head? = some Separator))

/-- A segment without a separator byte. -/
def SepFree (s : List Char) : Prop := Separator ∉ s

/-- A segment a normalized path may hold: not empty, no separator inside, and
neither `.` nor `..`. -/
def GoodSeg (s : List Char) : Prop :=
  s ≠ [] ∧ SepFree s ∧ s ≠ ['.'] ∧ s ≠ ['.', '.']

/-- Every segment preceded by a separator: `[a, b]` gives `/a/b`. -/
def tailStr : List (List Char) → List Char
  | [] => []
  | s :: ss => Separator :: (s ++ tailStr ss)

/-- The absolute path with the given segments; no segments is `/`. -/
def render : List (List Char) → List Char
  | [] => [Separator]
  | s :: ss => tailStr (s :: ss)

/-- A lexically normalized absolute path: `/`, or `/s1/.../sk` in which no
segment is empty, `.` or `..`. -/
def Normalized (path : List Char) : Prop :=
  ∃ segs : List (List Char), (∀ s ∈ segs, GoodSeg s) ∧ path = render segs

/-- One segment applied to the stack of segments kept so far: empty and `.`
segments are dropped, `..` pops (and is dropped at the root), anything else
is pushed. -/
def stepSeg (st : List (List Char)) (s : List Char) : List (List Char) :=
  if s = [] ∨ s = ['.'] then st
  else if s = ['.', '.'] then st.dropLast
  else st ++ [s]

/-- A stack of segments of a normalized path. -/
def GoodStack (st : List (List Char)) : Prop := ∀ s ∈ st, GoodSeg s

/-- The buffer holds exactly `content`. -/
def Holds (out : lazybuf) (content : List Char) : Prop :=
  out.buf.take out.w = content ∧ out.w = content.length

end Siview


namespace Siview

/-! ## The output buffer -/

theorem holds_append {out : lazybuf} {x : List Char} (h : Holds out x) (c : Char) :
    Holds (out.append c) (x ++ [c]) := by
  obtain ⟨h1, h2⟩ := h
  unfold Holds lazybuf.append
  simp only
  rw [h1]
  constructor
  · rw [h2]; simp
  · simp [h2]

theorem holds_index {out : lazybuf} {x : List Char} (h : Holds out x) (i : Nat)
    (hi : i < x.length) : out.index i = x.getD i default := by
  obtain ⟨h1, h2⟩ := h
  unfold lazybuf.index
  subst h1
  rw [List.getD_eq_getElem?_getD, List.getD_eq_getElem?_getD, List.getElem?_take_of_lt]
  simp at hi
  omega

theorem holds_truncate {out : lazybuf} {pre suf : List Char} (h : Holds out (pre ++ suf)) :
    Holds { out with w := pre.length } pre := by
  obtain ⟨h1, h2⟩ := h
  have hle : pre.length ≤ out.w := by rw [h2]; simp
  have : List.take pre.length (List.take out.w out.buf) = pre := by
    rw [h1]; simp
  rw [List.take_take, Nat.min_eq_left hle] at this
  exact ⟨this, rfl⟩

theorem sepFree_cons {c : Char} {s : List Char} (h : SepFree (c :: s)) :
    IsPathSeparator c = false ∧ SepFree s := by
  unfold SepFree at *
  simp at h
  refine ⟨?_, h.2⟩
  unfold IsPathSeparator
  simp
  exact fun e => h.1 e.symm

theorem copyElement_spec (s : List Char) (hs : SepFree s) (rest : List Char)
    (hrest : rest = [] ∨ ∃ r, rest = Separator :: r) :
    ∀ (out : lazybuf) (x : List Char), Holds out x →
      (copyElement (s ++ rest) out).1 = rest ∧ Holds (copyElement (s ++ rest) out).2 (x ++ s) := by
  induction s with
  | nil =>
    intro out x h
    rcases hrest with rfl | ⟨r, rfl⟩
    · simpa [copyElement] using h
    · simpa [copyElement, IsPathSeparator] using h
  | cons c s ih =>
    intro out x h
    obtain ⟨hc, hs2⟩ := sepFree_cons hs
    have := ih hs2 (out.append c) (x ++ [c]) (holds_append h c)
    simpa [copyElement, hc] using this

theorem sepFree_getD {s : List Char} (hs : SepFree s) (j : Nat) (hj : j < s.length) :
    IsPathSeparator (s.getD j default) = false := by
  have hmem : s.getD j default ∈ s := by
    rw [List.getD_eq_getElem?_getD, List.getElem?_eq_getElem hj]
    exact List.getElem_mem hj
  show (s.getD j default == Separator) = false
  rw [beq_eq_false_iff_ne]
  intro e
  exact hs (e ▸ hmem)

theorem getD_sep (pre s : List Char) :
    (pre ++ Separator :: s).getD pre.length default = Separator := by
  rw [List.getD_eq_getElem?_getD, List.getElem?_append_right (Nat.le_refl _)]
  simp

theorem getD_after (pre s : List Char) (j : Nat) :
    (pre ++ Separator :: s).getD (pre.length + j + 1) default = s.getD j default := by
  rw [List.getD_eq_getElem?_getD, List.getD_eq_getElem?_getD]
  rw [Nat.add_assoc, List.getElem?_append_right (by omega)]
  simp

theorem backtrackLoop_stop (out : lazybuf) (pre s : List Char) (hs : SepFree s)
    (h : Holds out (pre ++ Separator :: s)) (d : Nat) (hd : d ≤ pre.length) :
    ∀ j, j ≤ s.length → backtrackLoop out d (pre.length + j) = pre.length := by
  intro j
  induction j with
  | zero =>
    intro _
    cases hp : pre.length with
    | zero => simp [backtrackLoop]
    | succ n =>
      have hidx : out.index (n + 1) = Separator := by
        rw [holds_index h (n + 1) (by simp; omega), ← hp, getD_sep]
      simp [backtrackLoop, hidx, IsPathSeparator]
  | succ j ih =>
    intro hj
    have hidx : IsPathSeparator (out.index (pre.length + j + 1)) = false := by
      rw [holds_index h _ (by simp; omega), getD_after]
      exact sepFree_getD hs j (by omega)
    have hgt : d < pre.length + j + 1 := by omega
    rw [← Nat.add_assoc]
    simp only [backtrackLoop, hidx, hgt]
    simpa using ih (by omega)

theorem backtrackLoop_root (out : lazybuf) (s : List Char) (hs : SepFree s)
    (h : Holds out (Separator :: s)) :
    ∀ j, j < s.length → backtrackLoop out 1 (j + 1) = 1 := by
  intro j
  induction j with
  | zero => intro _; simp [backtrackLoop]
  | succ j ih =>
    intro hj
    have hidx : IsPathSeparator (out.index (j + 1 + 1)) = false := by
      rw [holds_index h _ (by simp; omega)]
      have := getD_after [] s (j + 1)
      simp only [List.nil_append, List.length_nil, Nat.zero_add] at this
      rw [this]
      exact sepFree_getD hs (j + 1) hj
    rw [backtrackLoop]
    simp only [hidx]
    simpa using ih (by omega)

/-! ## Segment stacks -/

theorem tailStr_append (a b : List (List Char)) :
    tailStr (a ++ b) = tailStr a ++ tailStr b := by
  induction a with
  | nil => rfl
  | cons x a ih => simp [tailStr, ih]

theorem render_snoc (st : List (List Char)) (s : List Char) :
    render (st ++ [s]) = tailStr st ++ Separator :: s := by
  cases st with
  | nil => simp [render, tailStr]
  | cons x st =>
    show tailStr ((x :: st) ++ [s]) = _
    rw [tailStr_append]
    simp [tailStr]

theorem render_ne_nil {st : List (List Char)} (h : st ≠ []) : render st = tailStr st := by
  cases st with
  | nil => exact absurd rfl h
  | cons x st => rfl

theorem tailStr_length_ge {st : List (List Char)} (hst : GoodStack st) (h : st ≠ []) :
    2 ≤ (tailStr st).length := by
  cases st with
  | nil => exact absurd rfl h
  | cons x st =>
    have hx : x ≠ [] := (hst x (List.mem_cons_self _ _)).1
    have : 0 < x.length := List.length_pos.mpr hx
    simp [tailStr]
    omega

theorem goodStack_append {a b : List (List Char)} (ha : GoodStack a) (hb : GoodStack b) :
    GoodStack (a ++ b) := by
  intro s hs
  rcases List.mem_append.mp hs with h | h
  · exact ha s h
  · exact hb s h

theorem goodStack_dropLast {st : List (List Char)} (hst : GoodStack st) :
    GoodStack st.dropLast :=
  fun s hs => hst s (List.mem_of_mem_dropLast hs)

theorem stepSeg_good {st : List (List Char)} (hst : GoodStack st) {s : List Char}
    (hs : SepFree s) : GoodStack (stepSeg st s) := by
  unfold stepSeg
  split_ifs with h1 h2
  · exact hst
  · exact goodStack_dropLast hst
  · apply goodStack_append hst
    intro x hx
    simp at hx
    subst hx
    exact ⟨fun e => h1 (Or.inl e), hs, fun e => h1 (Or.inr e), h2⟩

theorem backtrack_holds {st : List (List Char)} (hst : GoodStack st) (hne : st ≠ [])
    {out : lazybuf} (h : Holds out (render st)) :
    Holds { out with w := backtrackLoop out 1 (out.w - 1) } (render st.dropLast) := by
  obtain ⟨st1, s, rfl⟩ : ∃ st1 s, st = st1 ++ [s] :=
    ⟨st.dropLast, st.getLast hne, (List.dropLast_append_getLast hne).symm⟩
  have hs : GoodSeg s := hst s (by simp)
  have hst1 : GoodStack st1 := fun x hx => hst x (by simp [hx])
  have hlen : 0 < s.length := List.length_pos.mpr hs.1
  rw [render_snoc] at h
  rw [List.dropLast_concat]
  have hw : out.w - 1 = (tailStr st1).length + s.length := by
    rw [h.2]; simp
  rw [hw]
  by_cases h1 : st1 = []
  · subst h1
    simp only [tailStr, List.nil_append, List.length_nil, Nat.zero_add] at h ⊢
    obtain ⟨j, hj⟩ : ∃ j, s.length = j + 1 := ⟨s.length - 1, by omega⟩
    rw [hj, backtrackLoop_root out s hs.2.1 h j (by omega)]
    exact @holds_truncate out [Separator] s h
  · rw [backtrackLoop_stop out (tailStr st1) s hs.2.1 h 1
      (by have := tailStr_length_ge hst1 h1; omega) s.length (Nat.le_refl _)]
    rw [render_ne_nil h1]
    exact holds_truncate h

theorem holds_width_one {st : List (List Char)} (hst : GoodStack st) {out : lazybuf}
    (h : Holds out (render st)) : out.w = 1 ↔ st = [] := by
  constructor
  · intro hw
    by_contra hne
    have := tailStr_length_ge hst hne
    rw [h.2, render_ne_nil hne] at hw
    omega
  · rintro rfl
    rw [h.2]; rfl

/-! ## The main loop of `Clean` on an absolute path -/

theorem rest_head {rest : List Char} (hrest : rest = [] ∨ ∃ r, rest = Separator :: r) :
    (rest.isEmpty || IsPathSeparator (rest.headD default)) = true := by
  rcases hrest with rfl | ⟨r, rfl⟩ <;> simp [IsPathSeparator]

theorem real_element_guards (c : Char) (s1 rest : List Char) (hs : SepFree (c :: s1))
    (hdot : c :: s1 ≠ ['.']) (hdd : c :: s1 ≠ ['.', '.']) :
    (c == '.' && ((s1 ++ rest).isEmpty || IsPathSeparator ((s1 ++ rest).headD default))) = false
    ∧ (c == '.' && (s1 ++ rest).headD default == '.'
        && ((s1 ++ rest).tail.isEmpty
          || IsPathSeparator ((s1 ++ rest).tail.headD default))) = false := by
  obtain ⟨_, hs1⟩ := sepFree_cons hs
  by_cases hc : c = '.'
  · subst hc
    cases s1 with
    | nil => exact absurd rfl hdot
    | cons d s2 =>
      obtain ⟨hd, hs2⟩ := sepFree_cons hs1
      constructor
      · simp [hd]
      · by_cases hd2 : d = '.'
        · subst hd2
          cases s2 with
          | nil => exact absurd rfl hdd
          | cons e s3 =>
            obtain ⟨he, _⟩ := sepFree_cons hs2
            simp [he]
        · simp [hd2]
  · simp [hc]

theorem cleanLoop_sep (rooted : Bool) (f : Nat) (c : Char) (t : List Char) (out : lazybuf)
    (d : Nat) (h1 : IsPathSeparator c = true) :
    cleanLoop rooted (f + 1) (c :: t) out d = cleanLoop rooted f t out d := by
  rw [cleanLoop, if_pos h1]

theorem cleanLoop_dot (rooted : Bool) (f : Nat) (c : Char) (t : List Char) (out : lazybuf)
    (d : Nat) (h1 : IsPathSeparator c = false)
    (h2 : (c == '.' && (t.isEmpty || IsPathSeparator (t.headD default))) = true) :
    cleanLoop rooted (f + 1) (c :: t) out d = cleanLoop rooted f t out d := by
  rw [cleanLoop, if_neg (by rw [h1]; exact Bool.false_ne_true), if_pos h2]

theorem cleanLoop_dotdot_back (rooted : Bool) (f : Nat) (c : Char) (t : List Char)
    (out : lazybuf) (d : Nat) (h1 : IsPathSeparator c = false)
    (h2 : (c == '.' && (t.isEmpty || IsPathSeparator (t.headD default))) = false)
    (h3 : (c == '.' && t.headD default == '.'
        && (t.tail.isEmpty || IsPathSeparator (t.tail.headD default))) = true)
    (hw : out.w > d) :
    cleanLoop rooted (f + 1) (c :: t) out d
      = cleanLoop rooted f t.tail { out with w := backtrackLoop out d (out.w - 1) } d := by
  rw [cleanLoop, if_neg (by rw [h1]; exact Bool.false_ne_true),
    if_neg (by rw [h2]; exact Bool.false_ne_true), if_pos h3, if_pos hw]

theorem cleanLoop_dotdot_root (f : Nat) (c : Char) (t : List Char)
    (out : lazybuf) (d : Nat) (h1 : IsPathSeparator c = false)
    (h2 : (c == '.' && (t.isEmpty || IsPathSeparator (t.headD default))) = false)
    (h3 : (c == '.' && t.headD default == '.'
        && (t.tail.isEmpty || IsPathSeparator (t.tail.headD default))) = true)
    (hw : ¬ out.w > d) :
    cleanLoop true (f + 1) (c :: t) out d = cleanLoop true f t.tail out d := by
  rw [cleanLoop, if_neg (by rw [h1]; exact Bool.false_ne_true),
    if_neg (by rw [h2]; exact Bool.false_ne_true), if_pos h3, if_neg hw,
    if_neg (by decide)]

theorem cleanLoop_real (f : Nat) (c : Char) (t : List Char)
    (out : lazybuf) (d : Nat) (h1 : IsPathSeparator c = false)
    (h2 : (c == '.' && (t.isEmpty || IsPathSeparator (t.headD default))) = false)
    (h3 : (c == '.' && t.headD default == '.'
        && (t.tail.isEmpty || IsPathSeparator (t.tail.headD default))) = false) :
    cleanLoop true (f + 1) (c :: t) out d
      = cleanLoop true f
          (copyElement (c :: t) (if out.w = 1 then out else out.append Separator)).1
          (copyElement (c :: t) (if out.w = 1 then out else out.append Separator)).2 d := by
  rw [cleanLoop, if_neg (by rw [h1]; exact Bool.false_ne_true),
    if_neg (by rw [h2]; exact Bool.false_ne_true),
    if_neg (by rw [h3]; exact Bool.false_ne_true)]
  by_cases hw : out.w = 1 <;> simp [hw]

theorem cleanLoop_segment (s rest : List Char) (hs : SepFree s)
    (hrest : rest = [] ∨ ∃ r, rest = Separator :: r)
    (st : List (List Char)) (hst : GoodStack st) (out : lazybuf) (h : Holds out (render st))
    (fuel : Nat) (hf : (s ++ rest).length ≤ fuel) :
    ∃ fuel1 out1, cleanLoop true fuel (s ++ rest) out 1 = cleanLoop true fuel1 rest out1 1
      ∧ Holds out1 (render (stepSeg st s)) ∧ rest.length ≤ fuel1 := by
  cases s with
  | nil => exact ⟨fuel, out, rfl, by simpa [stepSeg] using h, by simpa using hf⟩
  | cons c s1 =>
    obtain ⟨f, rfl⟩ : ∃ f, fuel = f + 1 := ⟨fuel - 1, by simp at hf; omega⟩
    obtain ⟨hc, hs1⟩ := sepFree_cons hs
    have hfr : rest.length ≤ f := by simp at hf; omega
    have hr := rest_head hrest
    by_cases hdot : c :: s1 = ['.']
    · obtain ⟨rfl, rfl⟩ : c = '.' ∧ s1 = [] := by simpa using hdot
      refine ⟨f, out, ?_, by simpa [stepSeg] using h, hfr⟩
      exact cleanLoop_dot true f '.' rest out 1 hc (by simpa using hr)
    · by_cases hdd : c :: s1 = ['.', '.']
      · obtain ⟨rfl, rfl⟩ : c = '.' ∧ s1 = ['.'] := by simpa using hdd
        have hstep : stepSeg st ['.', '.'] = st.dropLast := by simp [stepSeg]
        have hg2 : ('.' == '.' && (('.' :: rest).isEmpty
            || IsPathSeparator (('.' :: rest).headD default))) = false := by
          simp [IsPathSeparator, Separator]
        have hg3 : ('.' == '.' && ('.' :: rest).headD default == '.'
            && (('.' :: rest).tail.isEmpty
              || IsPathSeparator (('.' :: rest).tail.headD default))) = true := by
          simpa using hr
        rw [hstep]
        by_cases hne : st = []
        · subst hne
          have hw : out.w = 1 := (holds_width_one hst h).2 rfl
          refine ⟨f, out, ?_, by simpa using h, hfr⟩
          exact cleanLoop_dotdot_root f '.' ('.' :: rest) out 1 hc hg2 hg3 (by omega)
        · have hw : 1 < out.w := by
            have := tailStr_length_ge hst hne
            rw [h.2, render_ne_nil hne]; omega
          refine ⟨f, _, ?_, backtrack_holds hst hne h, hfr⟩
          exact cleanLoop_dotdot_back true f '.' ('.' :: rest) out 1 hc hg2 hg3 hw
      · obtain ⟨hg2, hg3⟩ := real_element_guards c s1 rest hs hdot hdd
        have hstep : stepSeg st (c :: s1) = st ++ [c :: s1] := by simp [stepSeg, hdot, hdd]
        have hunf := cleanLoop_real f c (s1 ++ rest) out 1 hc hg2 hg3
        rw [hstep, render_snoc]
        by_cases hne : st = []
        · subst hne
          have hw : out.w = 1 := (holds_width_one hst h).2 rfl
          obtain ⟨hc1, hc2⟩ := copyElement_spec (c :: s1) hs rest hrest out _ h
          rw [if_pos hw] at hunf
          refine ⟨f, _, ?_, by simpa [render, tailStr] using hc2, hfr⟩
          rw [List.cons_append, hunf]
          rw [List.cons_append] at hc1
          rw [hc1]
        · have hw : out.w ≠ 1 := fun e => hne ((holds_width_one hst h).1 e)
          rw [render_ne_nil hne] at h
          obtain ⟨hc1, hc2⟩ :=
            copyElement_spec (c :: s1) hs rest hrest _ _ (holds_append h Separator)
          rw [if_neg hw] at hunf
          refine ⟨f, _, ?_, by simpa using hc2, hfr⟩
          rw [List.cons_append, hunf]
          rw [List.cons_append] at hc1
          rw [hc1]

theorem tailStr_head (ss : List (List Char)) :
    tailStr ss = [] ∨ ∃ r, tailStr ss = Separator :: r := by
  cases ss with
  | nil => exact Or.inl rfl
  | cons x ss => exact Or.inr ⟨_, rfl⟩

theorem cleanLoop_nil (rooted : Bool) (f : Nat) (out : lazybuf) (d : Nat) :
    cleanLoop rooted f [] out d = out := by
  cases f <;> rfl

theorem foldl_stepSeg_good (ss : List (List Char)) (hss : ∀ x ∈ ss, SepFree x) :
    ∀ st, GoodStack st → GoodStack (List.foldl stepSeg st ss) := by
  induction ss with
  | nil => intro st h; exact h
  | cons x ss ih =>
    intro st h
    exact ih (fun y hy => hss y (List.mem_cons_of_mem _ hy)) _
      (stepSeg_good h (hss x (List.mem_cons_self _ _)))

theorem cleanLoop_segments (ss : List (List Char)) :
    ∀ (s : List Char), SepFree s → (∀ x ∈ ss, SepFree x) →
    ∀ (st : List (List Char)), GoodStack st → ∀ (out : lazybuf), Holds out (render st) →
    ∀ (fuel : Nat), (s ++ tailStr ss).length ≤ fuel →
      Holds (cleanLoop true fuel (s ++ tailStr ss) out 1)
        (render (List.foldl stepSeg st (s :: ss))) := by
  induction ss with
  | nil =>
    intro s hs _ st hst out h fuel hf
    obtain ⟨f1, out1, e, h1, _⟩ :=
      cleanLoop_segment s [] hs (Or.inl rfl) st hst out h fuel hf
    rw [show tailStr [] = [] from rfl, e, cleanLoop_nil]
    exact h1
  | cons x ss ih =>
    intro s hs hss st hst out h fuel hf
    obtain ⟨f1, out1, e, h1, hf1⟩ :=
      cleanLoop_segment s (tailStr (x :: ss)) hs (tailStr_head _) st hst out h fuel hf
    obtain ⟨f, rfl⟩ : ∃ f, f1 = f + 1 := ⟨f1 - 1, by simp [tailStr] at hf1; omega⟩
    rw [e]
    show Holds (cleanLoop true (f + 1) (Separator :: (x ++ tailStr ss)) out1 1) _
    rw [cleanLoop_sep true f Separator _ out1 1 rfl]
    exact ih x (hss x (List.mem_cons_self _ _))
      (fun y hy => hss y (List.mem_cons_of_mem _ hy)) _ (stepSeg_good hst hs) out1 h1 f
      (by simp [tailStr] at hf1; simpa using hf1)

theorem render_length_pos (st : List (List Char)) : 0 < (render st).length := by
  cases st <;> simp [render, tailStr]

theorem exists_segments (rest : List Char) :
    ∃ s ss, SepFree s ∧ (∀ x ∈ ss, SepFree x) ∧ rest = s ++ tailStr ss := by
  induction rest with
  | nil => exact ⟨[], [], by simp [SepFree], by simp, rfl⟩
  | cons c rest ih =>
    obtain ⟨s, ss, hs, hss, rfl⟩ := ih
    by_cases hc : c = Separator
    · subst hc
      refine ⟨[], s :: ss, by simp [SepFree], ?_, rfl⟩
      intro x hx
      rcases List.mem_cons.mp hx with rfl | hx
      · exact hs
      · exact hss x hx
    · refine ⟨c :: s, ss, ?_, hss, rfl⟩
      unfold SepFree at *
      simp
      exact ⟨fun e => hc e.symm, hs⟩

/-- `Clean` of an absolute path, by segments: the path `/s/s1/.../sk` cleans to
the rendering of the stack its segments leave. -/
theorem Clean_tailStr (s : List Char) (ss : List (List Char)) (hs : SepFree s)
    (hss : ∀ x ∈ ss, SepFree x) :
    Clean (tailStr (s :: ss)) = render (List.foldl stepSeg [] (s :: ss)) := by
  have hinit : Holds (lazybuf.append { buf := [], w := 0 } Separator) (render []) :=
    @holds_append { buf := [], w := 0 } [] ⟨rfl, rfl⟩ Separator
  have h := cleanLoop_segments ss s hs hss [] (by intro x hx; simp at hx) _ hinit
    (Separator :: (s ++ tailStr ss)).length (by simp)
  have hpos := render_length_pos (List.foldl stepSeg [] (s :: ss))
  show Clean (Separator :: (s ++ tailStr ss)) = _
  unfold Clean
  simp only [show IsPathSeparator Separator = true from rfl, if_true]
  have hw : ¬ ((cleanLoop true (Separator :: (s ++ tailStr ss)).length (s ++ tailStr ss)
      (lazybuf.append { buf := [], w := 0 } Separator) 1).w == 0) = true := by
    rw [h.2]
    intro e
    simp only [beq_iff_eq] at e
    omega
  rw [if_neg hw]
  exact h.1

/-! ## `Clean` and `Join` on normalized absolute paths -/

theorem goodSeg_sepFree {st : List (List Char)} (h : GoodStack st) : ∀ x ∈ st, SepFree x :=
  fun x hx => (h x hx).2.1

theorem stepSeg_push {s : List Char} (hs : GoodSeg s) (st : List (List Char)) :
    stepSeg st s = st ++ [s] := by
  unfold stepSeg
  rw [if_neg (by rintro (e | e); exact hs.1 e; exact hs.2.2.1 e), if_neg hs.2.2.2]

theorem foldl_stepSeg_push (b : List (List Char)) (hb : GoodStack b) :
    ∀ st, List.foldl stepSeg st b = st ++ b := by
  induction b with
  | nil => intro st; simp
  | cons x b ih =>
    intro st
    rw [List.foldl_cons, stepSeg_push (hb x (List.mem_cons_self _ _)),
      ih (fun y hy => hb y (List.mem_cons_of_mem _ hy))]
    simp

/-- A normalized absolute path, written with a separator before every segment:
`/` is the single empty segment. -/
theorem render_segments (a : List (List Char)) (ha : GoodStack a) :
    ∃ s ss, SepFree s ∧ (∀ x ∈ ss, SepFree x) ∧ render a = tailStr (s :: ss)
      ∧ ∀ st, List.foldl stepSeg st (s :: ss) = st ++ a := by
  cases a with
  | nil =>
    refine ⟨[], [], by simp [SepFree], by simp, rfl, ?_⟩
    intro st
    simp [stepSeg]
  | cons x a =>
    exact ⟨x, a, goodSeg_sepFree ha x (List.mem_cons_self _ _),
      fun y hy => goodSeg_sepFree ha y (List.mem_cons_of_mem _ hy), rfl,
      foldl_stepSeg_push _ ha⟩

theorem Clean_abs (rest : List Char) :
    ∃ st, GoodStack st ∧ Clean (Separator :: rest) = render st := by
  obtain ⟨s, ss, hs, hss, rfl⟩ := exists_segments rest
  refine ⟨List.foldl stepSeg [] (s :: ss), ?_, Clean_tailStr s ss hs hss⟩
  apply foldl_stepSeg_good (s :: ss) _ [] (by intro x hx; simp at hx)
  intro x hx
  rcases List.mem_cons.mp hx with rfl | hx
  · exact hs
  · exact hss x hx

theorem Clean_render (a : List (List Char)) (ha : GoodStack a) :
    Clean (render a) = render a := by
  obtain ⟨s, ss, hs, hss, e, hfold⟩ := render_segments a ha
  rw [e, Clean_tailStr s ss hs hss, hfold, List.nil_append, ← e]

theorem clean_abs_root {root : List Char} (habs : IsAbs root) (hclean : Clean root = root) :
    ∃ a, GoodStack a ∧ root = render a := by
  cases root with
  | nil => simp [IsAbs] at habs
  | cons c rest =>
    obtain rfl : c = Separator := by simpa [IsAbs] using habs
    obtain ⟨st, hst, e⟩ := Clean_abs rest
    exact ⟨st, hst, hclean ▸ e⟩

theorem Clean_join (a b : List (List Char)) (ha : GoodStack a) (hb : GoodStack b) :
    Clean (render a ++ Separator :: render b) = render (a ++ b) := by
  obtain ⟨s, ss, hs, hss, ea, hfa⟩ := render_segments a ha
  obtain ⟨t, ts, ht, hts, eb, hfb⟩ := render_segments b hb
  have e : render a ++ Separator :: render b = tailStr (s :: (ss ++ [] :: t :: ts)) := by
    rw [ea, eb, ← List.cons_append, tailStr_append]
    simp [tailStr]
  have hall : ∀ x ∈ ss ++ [] :: t :: ts, SepFree x := by
    intro x hx
    rcases List.mem_append.mp hx with h | h
    · exact hss x h
    · rcases List.mem_cons.mp h with rfl | h
      · simp [SepFree]
      · rcases List.mem_cons.mp h with rfl | h
        · exact ht
        · exact hts x h
  rw [e, Clean_tailStr s _ hs hall, ← List.cons_append, List.foldl_append, hfa,
    List.foldl_cons, List.nil_append]
  rw [show stepSeg a [] = a by simp [stepSeg], hfb]

/-- Two trailing separators do not change what an absolute path cleans to. -/
theorem Clean_trailing {root : List Char} (habs : IsAbs root) :
    Clean (root ++ [Separator, Separator]) = Clean root := by
  cases root with
  | nil => simp [IsAbs] at habs
  | cons c rest =>
    obtain rfl : c = Separator := by simpa [IsAbs] using habs
    obtain ⟨s, ss, hs, hss, rfl⟩ := exists_segments rest
    have e : Separator :: (s ++ tailStr ss) ++ [Separator, Separator]
        = tailStr (s :: (ss ++ [[], []])) := by
      simp [tailStr, tailStr_append]
    have hall : ∀ x ∈ ss ++ [[], []], SepFree x := by
      intro x hx
      rcases List.mem_append.mp hx with h | h
      · exact hss x h
      · have : x = [] := by simpa using h
        subst this
        simp [SepFree]
    rw [e, Clean_tailStr s _ hs hall]
    show _ = Clean (tailStr (s :: ss))
    rw [Clean_tailStr s ss hs hss, ← List.cons_append, List.foldl_append]
    simp [stepSeg]

/-! ## Lengths -/

theorem tailStr_dropLast_length (st : List (List Char)) :
    (tailStr st.dropLast).length ≤ (tailStr st).length := by
  by_cases h : st = []
  · subst h; simp
  · conv => rhs; rw [← List.dropLast_append_getLast h, tailStr_append]
    simp

theorem stepSeg_length (st : List (List Char)) (s : List Char) :
    (tailStr (stepSeg st s)).length ≤ (tailStr st).length + (s.length + 1) := by
  unfold stepSeg
  split_ifs
  · omega
  · have := tailStr_dropLast_length st
    omega
  · rw [tailStr_append]
    simp [tailStr]

theorem foldl_stepSeg_length (l : List (List Char)) :
    ∀ st, (tailStr (List.foldl stepSeg st l)).length
      ≤ (tailStr st).length + (tailStr l).length := by
  induction l with
  | nil => intro st; simp [tailStr]
  | cons x l ih =>
    intro st
    have h1 := ih (stepSeg st x)
    have h2 := stepSeg_length st x
    simp only [List.foldl_cons, tailStr, List.length_cons, List.length_append] at *
    omega

/-- Cleaning an absolute path never makes it longer. -/
theorem Clean_abs_length {root : List Char} (habs : IsAbs root) :
    (Clean root).length ≤ root.length := by
  cases root with
  | nil => simp [IsAbs] at habs
  | cons c rest =>
    obtain rfl : c = Separator := by simpa [IsAbs] using habs
    obtain ⟨s, ss, hs, hss, rfl⟩ := exists_segments rest
    show (Clean (tailStr (s :: ss))).length ≤ (tailStr (s :: ss)).length
    rw [Clean_tailStr s ss hs hss]
    have h := foldl_stepSeg_length (s :: ss) []
    cases hX : List.foldl stepSeg [] (s :: ss) with
    | nil => simp [render, tailStr]
    | cons x xs =>
      rw [hX] at h
      simpa [render, tailStr] using h

/-! ## The prefix check and `Join` -/

theorem hasPrefix_iff (p pre : List Char) : HasPrefix p pre = true ↔ pre <+: p := by
  unfold HasPrefix stringsHasPrefix
  rw [List.prefix_iff_eq_take]
  constructor
  · intro h
    simp only [Bool.and_eq_true, beq_iff_eq] at h
    exact h.2.symm
  · intro h
    have hl : pre.length ≤ p.length := by
      have := congrArg List.length h
      rw [List.length_take] at this
      omega
    simp only [Bool.and_eq_true, beq_iff_eq, decide_eq_true_eq]
    exact ⟨hl, h.symm⟩

theorem Join_pair (root p : List Char) (h : root ≠ []) :
    Join [root, p] = Clean (root ++ Separator :: p) := by
  simp [Join, stringsJoin, List.intercalate, h]

theorem isAbs_ne_nil {root : List Char} (h : IsAbs root) : root ≠ [] := by
  rintro rfl
  simp [IsAbs] at h

theorem safePath_ok_of_under (root rel : List Char)
    (h : root <+: Join [root, Clean (Separator :: rel)]) :
    safePath root rel = .ok (Join [root, Clean (Separator :: rel)]) := by
  unfold safePath
  simp only
  rw [(hasPrefix_iff _ _).2 h]
  rfl

theorem safePath_error_of_not_under (root rel : List Char)
    (h : ¬ root <+: Join [root, Clean (Separator :: rel)]) :
    safePath root rel = .error GoError.ErrPermission := by
  unfold safePath
  simp only
  have : HasPrefix (Join [root, Clean (Separator :: rel)]) root = false := by
    rw [← Bool.not_eq_true, hasPrefix_iff]
    exact h
  rw [this]
  rfl

theorem tailStr_cons_sep {b : List (List Char)} (h : b ≠ []) :
    ∃ r, tailStr b = Separator :: r := by
  cases b with
  | nil => exact absurd rfl h
  | cons x b => exact ⟨_, rfl⟩

/-- How the rendering of `a ++ b` sits under the rendering of `a`. -/
theorem render_append_under (a b : List (List Char)) :
    render (a ++ b) = render a
      ∨ (render a ++ [Separator]) <+: render (a ++ b)
      ∨ (render a = [Separator] ∧ render a <+: render (a ++ b)) := by
  by_cases hb : b = []
  · subst hb
    left
    simp
  · obtain ⟨r, hr⟩ := tailStr_cons_sep hb
    by_cases ha : a = []
    · subst ha
      right; right
      refine ⟨rfl, ?_⟩
      rw [List.nil_append, render_ne_nil hb, hr]
      exact ⟨r, rfl⟩
    · right; left
      rw [render_ne_nil ha, render_ne_nil (by simp [ha]), tailStr_append, hr]
      exact ⟨r, by simp⟩

theorem render_prefix_append (a b : List (List Char)) : render a <+: render (a ++ b) := by
  rcases render_append_under a b with h | h | h
  · rw [h]
  · exact (List.prefix_append _ _).trans h
  · exact h.2

/-- With a normalized absolute root, `safePath` returns the root's segments
followed by the segments the cleaned input keeps. -/
theorem safePath_normalized_root {root : List Char} (habs : IsAbs root)
    (hclean : Clean root = root) (rel : List Char) :
    ∃ a b, GoodStack a ∧ GoodStack b ∧ root = render a
      ∧ Clean (Separator :: rel) = render b
      ∧ Join [root, Clean (Separator :: rel)] = render (a ++ b)
      ∧ safePath root rel = .ok (render (a ++ b)) := by
  obtain ⟨a, ha, rfl⟩ := clean_abs_root habs hclean
  obtain ⟨b, hb, eb⟩ := Clean_abs rel
  have hj : Join [render a, Clean (Separator :: rel)] = render (a ++ b) := by
    rw [Join_pair _ _ (isAbs_ne_nil habs), eb, Clean_join a b ha hb]
  refine ⟨a, b, ha, hb, rfl, eb, hj, ?_⟩
  rw [safePath_ok_of_under _ _ (by rw [hj]; exact render_prefix_append a b), hj]

theorem Join_abs {root : List Char} (habs : IsAbs root) (rel : List Char) :
    ∃ a b, GoodStack a ∧ GoodStack b ∧ Clean root = render a
      ∧ Clean (Separator :: rel) = render b
      ∧ Join [root, Clean (Separator :: rel)] = render (a ++ b) := by
  cases root with
  | nil => simp [IsAbs] at habs
  | cons c rest =>
    obtain rfl : c = Separator := by simpa [IsAbs] using habs
    obtain ⟨s, ss, hs, hss, rfl⟩ := exists_segments rest
    obtain ⟨b, hb, eb⟩ := Clean_abs rel
    obtain ⟨t, ts, ht, hts, etb, hfb⟩ := render_segments b hb
    have hall : ∀ x ∈ s :: ss, SepFree x := by
      intro x hx
      rcases List.mem_cons.mp hx with rfl | hx
      · exact hs
      · exact hss x hx
    have ha : GoodStack (List.foldl stepSeg [] (s :: ss)) :=
      foldl_stepSeg_good (s :: ss) hall [] (by intro x hx; simp at hx)
    refine ⟨List.foldl stepSeg [] (s :: ss), b, ha, hb, Clean_tailStr s ss hs hss, eb, ?_⟩
    rw [Join_pair _ _ (by simp), eb, etb]
    have e : Separator :: (s ++ tailStr ss) ++ Separator :: tailStr (t :: ts)
        = tailStr (s :: (ss ++ [] :: t :: ts)) := by
      simp [tailStr, tailStr_append]
    have hall2 : ∀ x ∈ ss ++ [] :: t :: ts, SepFree x := by
      intro x hx
      rcases List.mem_append.mp hx with h | h
      · exact hss x h
      · rcases List.mem_cons.mp h with rfl | h
        · simp [SepFree]
        · rcases List.mem_cons.mp h with rfl | h
          · exact ht
          · exact hts x h
    rw [e, Clean_tailStr s _ hs hall2, ← List.cons_append, List.foldl_append,
      List.foldl_cons]
    rw [show stepSeg (List.foldl stepSeg [] (s :: ss)) [] = List.foldl stepSeg [] (s :: ss) by
      simp [stepSeg], hfb]

theorem Join_slash {root : List Char} (habs : IsAbs root) :
    Join [root, [Separator]] = Clean root := by
  rw [Join_pair _ _ (isAbs_ne_nil habs)]
  exact Clean_trailing habs

theorem safePath_of_clean_slash {root rel : List Char} (habs : IsAbs root)
    (hclean : Clean root = root) (hrel : Clean (Separator :: rel) = [Separator]) :
    safePath root rel = .ok root := by
  have hj : Join [root, Clean (Separator :: rel)] = root := by
    rw [hrel, Join_slash habs, hclean]
  have := safePath_ok_of_under root rel (by rw [hj])
  rw [this, hj]

theorem safePath_error_of_unclean {root rel : List Char} (habs : IsAbs root)
    (hclean : Clean root ≠ root) (hrel : Clean (Separator :: rel) = [Separator]) :
    safePath root rel = .error GoError.ErrPermission := by
  apply safePath_error_of_not_under
  rw [hrel, Join_slash habs]
  intro hp
  exact hclean (hp.eq_of_length_le (Clean_abs_length habs)).symm

theorem intercalate_sep (s : List Char) (ss : List (List Char)) :
    [Separator].intercalate (s :: ss) = s ++ tailStr ss := by
  induction ss generalizing s with
  | nil => simp [List.intercalate, tailStr]
  | cons x ss ih =>
    have := ih x
    simp only [List.intercalate, List.intersperse, List.flatten] at this ⊢
    simp [tailStr, this]

theorem foldl_stepSeg_dotdot (l : List (List Char))
    (h : ∀ s ∈ l, s = ['.', '.'] ∨ s = []) : List.foldl stepSeg [] l = [] := by
  induction l with
  | nil => rfl
  | cons x l ih =>
    have hx : stepSeg [] x = [] := by
      rcases h x (List.mem_cons_self _ _) with rfl | rfl <;> simp [stepSeg]
    rw [List.foldl_cons, hx]
    exact ih (fun y hy => h y (List.mem_cons_of_mem _ hy))

theorem entryLoop_ok (children : List DirEntry)
    (h : ∀ c ∈ children, ∃ info, c.Info = .ok info) :
    ∀ out, entryLoop children out = some (out ++ children.map entryOf) := by
  induction children with
  | nil => intro out; simp [entryLoop]
  | cons c cs ih =>
    intro out
    obtain ⟨info, hinfo⟩ := h c (List.mem_cons_self _ _)
    have hc : entryOf c = { Name := c.Name, IsDir := c.IsDir, Size := info.Size } := by
      simp [entryOf, hinfo]
    simp only [entryLoop, hinfo]
    rw [ih (fun y hy => h y (List.mem_cons_of_mem _ hy)), List.map_cons, hc]
    simp

/-! ## Confinement (`safePath`) -/

/-- C1, as stated, fails at the root `/`: `safePath("a")` returns `/a`, which is
neither the root nor the root followed by a path separator (`//`). -/
theorem safePath_confined_counterexample :
    IsAbs "/".toList ∧ Clean "/".toList = "/".toList
      ∧ safePath "/".toList "a".toList = .ok "/a".toList
      ∧ ¬ ("/a".toList = "/".toList ∨ ("/".toList ++ [Separator]) <+: "/a".toList) := by
  decide

/-- C1 (amended): for every absolute, lexically clean root and every input,
`safePath` returns a path `full` that is lexically normalized (`/`, or
separator-led segments none of which is empty, `.` or `..`, and a fixed point of
`Clean`) and that is the root, or begins with the root followed by a path
separator, or, when the root is `/` itself, begins with `/`. -/
theorem safePath_confined (root rel : List Char) (habs : IsAbs root)
    (hclean : Clean root = root) :
    ∃ full, safePath root rel = .ok full ∧ Normalized full ∧ Clean full = full
      ∧ (full = root ∨ (root ++ [Separator]) <+: full
          ∨ (root = [Separator] ∧ root <+: full)) := by
  obtain ⟨a, b, ha, hb, rfl, _, _, hs⟩ := safePath_normalized_root habs hclean rel
  have hab := goodStack_append ha hb
  exact ⟨render (a ++ b), hs, ⟨a ++ b, hab, rfl⟩, Clean_render _ hab,
    render_append_under a b⟩

/-- C1 (amended) at the root `/srv/data` and the input `../../etc/passwd`. -/
theorem safePath_confined_witness :
    IsAbs "/srv/data".toList ∧ Clean "/srv/data".toList = "/srv/data".toList
      ∧ ∃ full, safePath "/srv/data".toList "../../etc/passwd".toList = .ok full
        ∧ Normalized full ∧ Clean full = full
        ∧ (full = "/srv/data".toList ∨ ("/srv/data".toList ++ [Separator]) <+: full
            ∨ ("/srv/data".toList = [Separator] ∧ "/srv/data".toList <+: full)) :=
  ⟨by decide, by decide,
    safePath_confined "/srv/data".toList "../../etc/passwd".toList (by decide) (by decide)⟩

/-- C2: for every absolute, lexically clean root and every input made only of
`..` segments separated by `/` (a trailing or doubled separator leaves an empty
segment), `safePath` succeeds and returns exactly the root. -/
theorem safePath_dotdot_only (root : List Char) (segs : List (List Char))
    (habs : IsAbs root) (hclean : Clean root = root)
    (hsegs : ∀ s ∈ segs, s = ['.', '.'] ∨ s = []) :
    safePath root ([Separator].intercalate segs) = .ok root := by
  apply safePath_of_clean_slash habs hclean
  cases segs with
  | nil => decide
  | cons s ss =>
    have hfree : ∀ x ∈ s :: ss, SepFree x := by
      intro x hx
      rcases hsegs x hx with rfl | rfl <;> simp [SepFree, Separator]
    rw [intercalate_sep]
    show Clean (tailStr (s :: ss)) = _
    rw [Clean_tailStr s ss (hfree s (List.mem_cons_self _ _))
      (fun x hx => hfree x (List.mem_cons_of_mem _ hx)), foldl_stepSeg_dotdot _ hsegs]
    rfl

/-- C2 at the root `/srv/data` and the input `../../` (segments `..`, `..` and
an empty one). -/
theorem safePath_dotdot_only_witness :
    IsAbs "/srv/data".toList ∧ Clean "/srv/data".toList = "/srv/data".toList
      ∧ (∀ s ∈ ["..".toList, "..".toList, "".toList], s = ['.', '.'] ∨ s = [])
      ∧ safePath "/srv/data".toList
          ([Separator].intercalate ["..".toList, "..".toList, "".toList])
        = .ok "/srv/data".toList :=
  ⟨by decide, by decide, by decide,
    safePath_dotdot_only "/srv/data".toList ["..".toList, "..".toList, "".toList]
      (by decide) (by decide) (by decide)⟩

/-- C3: for every absolute, lexically clean root, `safePath("")` and
`safePath("/")` both succeed and both return exactly the root. -/
theorem safePath_empty_identity (root : List Char) (habs : IsAbs root)
    (hclean : Clean root = root) :
    safePath root [] = .ok root ∧ safePath root [Separator] = .ok root :=
  ⟨safePath_of_clean_slash habs hclean (by decide),
    safePath_of_clean_slash habs hclean (by decide)⟩

/-- C3 at the root `/home/user`. -/
theorem safePath_empty_identity_witness :
    IsAbs "/home/user".toList ∧ Clean "/home/user".toList = "/home/user".toList
      ∧ safePath "/home/user".toList [] = .ok "/home/user".toList
      ∧ safePath "/home/user".toList [Separator] = .ok "/home/user".toList :=
  ⟨by decide, by decide,
    safePath_empty_identity "/home/user".toList (by decide) (by decide)⟩

/-- C4, as stated, fails: the check passes for the candidate `/home/user2`
against the root `/home/user`, and inside `safePath` it passes for root `/a/.`
and input `.b`, whose candidate `/a/.b` is neither the root nor the root
followed by a path separator. -/
theorem hasPrefix_accepts_sibling :
    HasPrefix "/home/user2".toList "/home/user".toList = true
      ∧ ¬ ("/home/user2".toList = "/home/user".toList
          ∨ ("/home/user".toList ++ [Separator]) <+: "/home/user2".toList)
      ∧ IsAbs "/a/.".toList
      ∧ safePath "/a/.".toList ".b".toList = .ok "/a/.b".toList
      ∧ ¬ ("/a/.b".toList = "/a/.".toList
          ∨ ("/a/.".toList ++ [Separator]) <+: "/a/.b".toList) := by
  decide

/-- C4 (amended): the check `filepath.HasPrefix(full, root)` of `safePath` is a
string-prefix test: it passes exactly when the root is a string prefix of the
candidate, and `safePath` returns the candidate exactly then.  For every
absolute root and every input the candidate `Join(root, Clean("/" + rel))` is
the cleaned root, or the cleaned root followed by a path separator and more, or
the cleaned root is `/` and the candidate begins with it; with a root that is
already clean the check always passes. -/
theorem safePath_check_by_bytes (root rel : List Char) (habs : IsAbs root) :
    (∀ cand r : List Char, HasPrefix cand r = true ↔ r <+: cand)
      ∧ safePath root rel
          = (if root <+: Join [root, Clean (Separator :: rel)]
              then .ok (Join [root, Clean (Separator :: rel)])
              else .error GoError.ErrPermission)
      ∧ (Join [root, Clean (Separator :: rel)] = Clean root
          ∨ (Clean root ++ [Separator]) <+: Join [root, Clean (Separator :: rel)]
          ∨ (Clean root = [Separator]
              ∧ Clean root <+: Join [root, Clean (Separator :: rel)]))
      ∧ (Clean root = root →
          HasPrefix (Join [root, Clean (Separator :: rel)]) root = true) := by
  obtain ⟨a, b, _, _, ha, _, hj⟩ := Join_abs habs rel
  refine ⟨hasPrefix_iff, ?_, ?_, ?_⟩
  · by_cases h : root <+: Join [root, Clean (Separator :: rel)]
    · rw [if_pos h]
      exact safePath_ok_of_under root rel h
    · rw [if_neg h]
      exact safePath_error_of_not_under root rel h
  · rw [hj, ha]
    exact render_append_under a b
  · intro hclean
    rw [hasPrefix_iff, hj]
    have := render_prefix_append a b
    rw [← ha, hclean] at this
    exact this

/-- C4 (amended) at the root `/home/user`, the input `../user2`. -/
theorem safePath_check_by_bytes_witness :
    IsAbs "/home/user".toList
      ∧ safePath "/home/user".toList "../user2".toList = .ok "/home/user/user2".toList
      ∧ (Join ["/home/user".toList, Clean (Separator :: "../user2".toList)]
            = Clean "/home/user".toList
          ∨ (Clean "/home/user".toList ++ [Separator])
              <+: Join ["/home/user".toList, Clean (Separator :: "../user2".toList)]
          ∨ (Clean "/home/user".toList = [Separator]
              ∧ Clean "/home/user".toList
                <+: Join ["/home/user".toList, Clean (Separator :: "../user2".toList)])) :=
  ⟨by decide, by decide,
    (safePath_check_by_bytes "/home/user".toList "../user2".toList (by decide)).2.2.1⟩

/-- C10: for every absolute root, `safePath` accepts every input if and only if
the root is already lexically normalized; with a normalized root the result is
always `Join(root, Clean("/" + rel))`; with a root that is not normalized the
inputs `""` and `/` are rejected, the cleaned candidate being no longer than the
root. -/
theorem safePath_total_iff_clean_root (root : List Char) (habs : IsAbs root) :
    ((∀ rel, ∃ full, safePath root rel = .ok full) ↔ Clean root = root)
      ∧ (Clean root = root →
          ∀ rel, safePath root rel = .ok (Join [root, Clean (Separator :: rel)]))
      ∧ (Clean root ≠ root →
          safePath root [] = .error GoError.ErrPermission
            ∧ safePath root [Separator] = .error GoError.ErrPermission
            ∧ (Join [root, Clean [Separator]]).length ≤ root.length
            ∧ (Join [root, Clean [Separator, Separator]]).length ≤ root.length) := by
  have hbad : Clean root ≠ root →
      safePath root [] = .error GoError.ErrPermission
        ∧ safePath root [Separator] = .error GoError.ErrPermission :=
    fun h => ⟨safePath_error_of_unclean habs h (by decide),
      safePath_error_of_unclean habs h (by decide)⟩
  have hlen : (Join [root, [Separator]]).length ≤ root.length := by
    rw [Join_slash habs]
    exact Clean_abs_length habs
  refine ⟨⟨?_, ?_⟩, ?_, ?_⟩
  · intro hall
    by_contra hne
    obtain ⟨full, hfull⟩ := hall []
    rw [(hbad hne).1] at hfull
    exact absurd hfull (by simp)
  · intro hclean rel
    obtain ⟨a, b, _, _, _, _, hj, hs⟩ := safePath_normalized_root habs hclean rel
    exact ⟨_, hs⟩
  · intro hclean rel
    obtain ⟨a, b, _, _, _, _, hj, hs⟩ := safePath_normalized_root habs hclean rel
    rw [hs, hj]
  · intro hne
    refine ⟨(hbad hne).1, (hbad hne).2, ?_, ?_⟩
    · rw [show Clean [Separator] = [Separator] by decide]
      exact hlen
    · rw [show Clean [Separator, Separator] = [Separator] by decide]
      exact hlen

/-- C10 at the root `/home/user/`, which is absolute and not normalized. -/
theorem safePath_total_iff_clean_root_witness :
    IsAbs "/home/user/".toList
      ∧ Clean "/home/user/".toList ≠ "/home/user/".toList
      ∧ safePath "/home/user/".toList [] = .error GoError.ErrPermission
      ∧ safePath "/home/user/".toList [Separator] = .error GoError.ErrPermission :=
  ⟨by decide, by decide,
    ((safePath_total_iff_clean_root "/home/user/".toList (by decide)).2.2 (by decide)).1,
    ((safePath_total_iff_clean_root "/home/user/".toList (by decide)).2.2 (by decide)).2.1⟩

/-! ## The List handler -/

theorem listHandler_rejected {root rel : List Char} {e : GoError}
    (h : safePath root rel = .error e) (fs : FileSystem) :
    listHandler root fs rel
      = { reads := [], outcome := .responded (httpError "invalid path" StatusBadRequest) } := by
  simp only [listHandler, h]

theorem listHandler_accepted {root rel full : List Char} (h : safePath root rel = .ok full)
    (fs : FileSystem) :
    (listHandler root fs rel).reads = [full]
      ∧ ∀ r, (listHandler root fs rel).outcome = .responded r →
          r.status = StatusBadRequest → False := by
  cases hread : fs.ReadDir full with
  | error err =>
    have e : listHandler root fs rel
        = { reads := [full], outcome := .responded (httpError err StatusNotFound) } := by
      simp only [listHandler, h, hread]
    rw [e]
    refine ⟨rfl, ?_⟩
    intro r hr hs
    simp only [Outcome.responded.injEq] at hr
    subst hr
    simp [httpError, StatusNotFound, StatusBadRequest] at hs
  | ok entries =>
    cases hloop : entryLoop entries [] with
    | none =>
      have e : listHandler root fs rel
          = { reads := [full], outcome := .nilDereference } := by
        simp only [listHandler, h, hread, hloop]
      rw [e]
      refine ⟨rfl, ?_⟩
      intro r hr
      simp at hr
    | some out =>
      have e : listHandler root fs rel
          = { reads := [full],
              outcome := .responded
                { status := StatusOK, contentType := "application/json",
                  body := Body.json out } } := by
        simp only [listHandler, h, hread, hloop]
      rw [e]
      refine ⟨rfl, ?_⟩
      intro r hr hs
      simp only [Outcome.responded.injEq] at hr
      subst hr
      simp [StatusOK, StatusBadRequest] at hs

theorem listHandler_not_found {root rel full : List Char} (h : safePath root rel = .ok full)
    (fs : FileSystem) {err : String} (hread : fs.ReadDir full = .error err) :
    listHandler root fs rel
      = { reads := [full], outcome := .responded (httpError err StatusNotFound) } := by
  simp only [listHandler, h, hread]

/-- C5, as stated, fails: with root `/srv/data` the input `../../etc` is not
rejected; `safePath` returns `/srv/data/etc`, and where that directory does not
exist `listHandler` reads it and answers 404. -/
theorem listHandler_dotdot_etc_counterexample :
    safePath "/srv/data".toList "../../etc".toList = .ok "/srv/data/etc".toList
      ∧ listHandler "/srv/data".toList missingFS "../../etc".toList
        = { reads := ["/srv/data/etc".toList],
            outcome := .responded (httpError "no such file or directory" StatusNotFound) } := by
  decide

/-- C5 (amended): with root `/srv/data`, the path input `../../etc` is confined,
not rejected: `safePath` returns `/srv/data/etc` without error, `listHandler`
reads exactly that directory, never answers with status 400, and answers 404
with the read error's text when the read fails. -/
theorem listHandler_dotdot_etc_confined (fs : FileSystem) :
    safePath "/srv/data".toList "../../etc".toList = .ok "/srv/data/etc".toList
      ∧ (listHandler "/srv/data".toList fs "../../etc".toList).reads
          = ["/srv/data/etc".toList]
      ∧ (∀ r, (listHandler "/srv/data".toList fs "../../etc".toList).outcome = .responded r →
          r.status ≠ StatusBadRequest)
      ∧ (∀ err, fs.ReadDir "/srv/data/etc".toList = .error err →
          (listHandler "/srv/data".toList fs "../../etc".toList).outcome
            = .responded (httpError err StatusNotFound)) := by
  have hs : safePath "/srv/data".toList "../../etc".toList = .ok "/srv/data/etc".toList := by
    decide
  refine ⟨hs, (listHandler_accepted hs fs).1, ?_, ?_⟩
  · intro r hr hst
    exact (listHandler_accepted hs fs).2 r hr hst
  · intro err herr
    rw [listHandler_not_found hs fs herr]

/-- C6: for every root, path input and filesystem state, `listHandler` responds
with status 400 exactly when `safePath` rejects the input; the run is then the
same fixed one for every root, input and filesystem state: no directory is
read and the response is status 400 with the body `invalid path`. -/
theorem listHandler_bad_request_iff (root rel : List Char) (fs : FileSystem) :
    ((∃ r, (listHandler root fs rel).outcome = .responded r ∧ r.status = StatusBadRequest)
        ↔ ∃ e, safePath root rel = .error e)
      ∧ ((∃ e, safePath root rel = .error e) →
          listHandler root fs rel
            = { reads := [],
                outcome := .responded
                  { status := 400, contentType := "text/plain; charset=utf-8",
                    body := Body.text "invalid path" } }) := by
  refine ⟨⟨?_, ?_⟩, ?_⟩
  · rintro ⟨r, hr, hst⟩
    cases hs : safePath root rel with
    | error e => exact ⟨e, rfl⟩
    | ok full => exact absurd hst ((listHandler_accepted hs fs).2 r hr)
  · rintro ⟨e, he⟩
    rw [listHandler_rejected he fs]
    exact ⟨_, rfl, rfl⟩
  · rintro ⟨e, he⟩
    rw [listHandler_rejected he fs]
    rfl

/-- C7, as stated, fails: `safePath` accepts the empty input, the directory read
of `/srv/data` succeeds with two children, and `listHandler` does not respond
with status 200 because the metadata lookup of the second child fails. -/
theorem listHandler_listing_counterexample :
    safePath "/srv/data".toList [] = .ok "/srv/data".toList
      ∧ (∃ c1 c2, racingFS.ReadDir "/srv/data".toList = .ok [c1, c2])
      ∧ listHandler "/srv/data".toList racingFS []
        = { reads := ["/srv/data".toList], outcome := .nilDereference } :=
  ⟨by decide, ⟨_, _, rfl⟩, by decide⟩

/-- C7 (amended): for every input that `safePath` accepts and whose directory
read succeeds with children whose metadata lookups all succeed, `listHandler`
responds with status 200, content type `application/json`, and the array whose
i-th entry carries the name, the is-directory flag and the byte size of the i-th
child, in the order of the directory read. -/
theorem listHandler_listing (root rel full : List Char) (fs : FileSystem)
    (children : List DirEntry) (hs : safePath root rel = .ok full)
    (hread : fs.ReadDir full = .ok children)
    (hinfo : ∀ c ∈ children, ∃ info, c.Info = .ok info) :
    listHandler root fs rel
        = { reads := [full],
            outcome := .responded
              { status := 200, contentType := "application/json",
                body := Body.json (children.map entryOf) } }
      ∧ (children.map entryOf).length = children.length
      ∧ ∀ (i : Nat) (c : DirEntry) (info : FileInfo),
          children[i]? = some c → c.Info = .ok info →
            (children.map entryOf)[i]?
              = some { Name := c.Name, IsDir := c.IsDir, Size := info.Size } := by
  refine ⟨?_, by simp, ?_⟩
  · simp only [listHandler, hs, hread, entryLoop_ok children hinfo [], List.nil_append]
    rfl
  · intro i c info hc hi
    rw [List.getElem?_map, hc]
    simp [entryOf, hi]

/-- C7 (amended) on `/srv/data` holding a 42-byte file and a subdirectory. -/
theorem listHandler_listing_witness :
    safePath "/srv/data".toList [] = .ok "/srv/data".toList
      ∧ listHandler "/srv/data".toList sampleFS []
        = { reads := ["/srv/data".toList],
            outcome := .responded
              { status := 200, contentType := "application/json",
                body := Body.json
                  [{ Name := "notes.txt", IsDir := false, Size := 42 },
                   { Name := "docs", IsDir := true, Size := 4096 }] } } :=
  ⟨by decide,
    (listHandler_listing "/srv/data".toList [] "/srv/data".toList sampleFS
      [{ Name := "notes.txt", IsDir := false, Info := .ok { Size := 42 } },
       { Name := "docs", IsDir := true, Info := .ok { Size := 4096 } }]
      (by decide) rfl
      (by
        intro c hc
        simp only [List.mem_cons, List.mem_singleton, List.not_mem_nil, or_false] at hc
        rcases hc with rfl | rfl
        · exact ⟨_, rfl⟩
        · exact ⟨_, rfl⟩)).1⟩

/-- C8: in a filesystem state where the directory read of `/srv/data` succeeds
and the metadata lookup of its one child fails, `listHandler` reaches the use
of the missing metadata value and ends without a response. -/
theorem listHandler_missing_info_panics :
    safePath "/srv/data".toList [] = .ok "/srv/data".toList
      ∧ listHandler "/srv/data".toList vanishedFS []
        = { reads := ["/srv/data".toList], outcome := .nilDereference }
      ∧ ¬ ∃ r, (listHandler "/srv/data".toList vanishedFS []).outcome = .responded r := by
  refine ⟨by decide, by decide, ?_⟩
  rintro ⟨r, hr⟩
  have h : (listHandler "/srv/data".toList vanishedFS []).outcome = .nilDereference := by
    decide
  rw [h] at hr
  exact absurd hr (by simp)

/-! ## The Fetch route -/

theorem Clean_slash_render (b : List (List Char)) (hb : GoodStack b) :
    Clean (Separator :: render b) = render b := by
  obtain ⟨t, ts, ht, hts, etb, hfb⟩ := render_segments b hb
  have hall : ∀ x ∈ t :: ts, SepFree x := by
    intro x hx
    rcases List.mem_cons.mp hx with rfl | hx
    · exact ht
    · exact hts x hx
  rw [etb]
  show Clean (tailStr ([] :: t :: ts)) = _
  rw [Clean_tailStr [] (t :: ts) (by simp [SepFree]) hall, List.foldl_cons,
    show stepSeg [] [] = [] by simp [stepSeg], hfb, List.nil_append, ← etb]

theorem Clean_cons_sep (r : List Char) :
    Clean (Separator :: Separator :: r) = Clean (Separator :: r) := by
  obtain ⟨s, ss, hs, hss, rfl⟩ := exists_segments r
  have hall : ∀ x ∈ s :: ss, SepFree x := by
    intro x hx
    rcases List.mem_cons.mp hx with rfl | hx
    · exact hs
    · exact hss x hx
  show Clean (tailStr ([] :: s :: ss)) = Clean (tailStr (s :: ss))
  rw [Clean_tailStr [] (s :: ss) (by simp [SepFree]) hall, Clean_tailStr s ss hs hss,
    List.foldl_cons, show stepSeg [] [] = [] by simp [stepSeg]]

theorem goodSeg_index : GoodSeg "index.html".toList := by
  refine ⟨by decide, ?_, by decide, by decide⟩
  unfold SepFree
  decide

theorem goodStack_snoc_index {b : List (List Char)} (hb : GoodStack b) :
    GoodStack (b ++ ["index.html".toList]) := by
  apply goodStack_append hb
  intro x hx
  have : x = "index.html".toList := by simpa using hx
  subst this
  exact goodSeg_index

/-- Cleaning `/s` and `/s/index.html` keeps the same segments, the second with
`index.html` after them. -/
theorem Clean_with_index (s : List Char) :
    ∃ b, GoodStack b ∧ Clean (Separator :: s) = render b
      ∧ Clean (Separator :: (s ++ indexPage)) = render (b ++ ["index.html".toList]) := by
  obtain ⟨t, ts, ht, hts, rfl⟩ := exists_segments s
  have hall : ∀ x ∈ t :: ts, SepFree x := by
    intro x hx
    rcases List.mem_cons.mp hx with rfl | hx
    · exact ht
    · exact hts x hx
  have hb : GoodStack (List.foldl stepSeg [] (t :: ts)) :=
    foldl_stepSeg_good (t :: ts) hall [] (by intro x hx; simp at hx)
  refine ⟨_, hb, Clean_tailStr t ts ht hts, ?_⟩
  have e : Separator :: (t ++ tailStr ts ++ indexPage)
      = tailStr (t :: (ts ++ ["index.html".toList])) := by
    simp [tailStr, tailStr_append, indexPage, Separator]
  have hall2 : ∀ x ∈ ts ++ ["index.html".toList], SepFree x := by
    intro x hx
    rcases List.mem_append.mp hx with h | h
    · exact hts x h
    · have : x = "index.html".toList := by simpa using h
      subst this
      exact goodSeg_index.2.1
  rw [e, Clean_tailStr t _ ht hall2, ← List.cons_append, List.foldl_append]
  simp only [List.foldl_cons, List.foldl_nil]
  exact congrArg render (stepSeg_push goodSeg_index _)

theorem hasSuffix_sep_snoc (p : List Char) (c : Char) :
    stringsHasSuffix (p ++ [c]) [Separator] = (c == Separator) := by
  simp [stringsHasSuffix]

theorem tailStr_no_trailing_sep {b : List (List Char)} (hb : GoodStack b) (hne : b ≠ []) :
    stringsHasSuffix (tailStr b) [Separator] = false := by
  obtain ⟨b1, x, rfl⟩ : ∃ b1 x, b = b1 ++ [x] :=
    ⟨b.dropLast, b.getLast hne, (List.dropLast_append_getLast hne).symm⟩
  have hx : GoodSeg x := hb x (by simp)
  obtain ⟨x1, c, rfl⟩ : ∃ x1 c, x = x1 ++ [c] :=
    ⟨x.dropLast, x.getLast hx.1, (List.dropLast_append_getLast hx.1).symm⟩
  have hc : (c == Separator) = false := by
    rw [beq_eq_false_iff_ne]
    intro e
    exact hx.2.1 (by simp [e])
  have e : tailStr (b1 ++ [x1 ++ [c]]) = (tailStr b1 ++ Separator :: x1) ++ [c] := by
    simp [tailStr, tailStr_append]
  rw [e, hasSuffix_sep_snoc, hc]

/-- The name of the index page `serveFile` builds for a cleaned name. -/
theorem Clean_index_name (b : List (List Char)) (hb : GoodStack b) :
    Clean (Separator :: (stringsTrimSuffix (render b) [Separator] ++ indexPage))
      = render (b ++ ["index.html".toList]) := by
  have hgood := goodStack_snoc_index hb
  by_cases hne : b = []
  · subst hne
    have e : Separator :: (stringsTrimSuffix (render []) [Separator] ++ indexPage)
        = Separator :: render ([] ++ ["index.html".toList]) := by decide
    rw [e]
    exact Clean_slash_render _ hgood
  · have e : stringsTrimSuffix (render b) [Separator] ++ indexPage
        = render (b ++ ["index.html".toList]) := by
      rw [render_ne_nil hne, render_ne_nil (by simp), tailStr_append]
      unfold stringsTrimSuffix
      rw [tailStr_no_trailing_sep hb hne]
      simp [tailStr, indexPage, Separator]
    rw [e]
    exact Clean_slash_render _ hgood

theorem safePath_render (a b : List (List Char)) (ha : GoodStack a) (hb : GoodStack b)
    (rel : List Char) (hrel : Clean (Separator :: rel) = render b) :
    safePath (render a) rel = .ok (render (a ++ b)) := by
  have hne : render a ≠ [] := by
    intro e
    have := render_length_pos a
    rw [e] at this
    simp at this
  have hj : Join [render a, Clean (Separator :: rel)] = render (a ++ b) := by
    rw [Join_pair _ _ hne, hrel, Clean_join a b ha hb]
  rw [safePath_ok_of_under _ _ (by rw [hj]; exact render_prefix_append a b), hj]

theorem DirOpen_render (a c : List (List Char)) (ha : GoodStack a) (hc : GoodStack c)
    (name : List Char) (hname : Clean (Separator :: name) = render c) :
    DirOpen (render a) name = render (a ++ c) := by
  have hne : render a ≠ [] := by
    intro e
    have := render_length_pos a
    rw [e] at this
    simp at this
  unfold DirOpen
  rw [if_neg hne, Join_pair _ _ hne, hname, Clean_join a c ha hc]

theorem serveFile_opens (fs : OpenFS) (dir urlPath name : List Char) :
    (serveFile fs dir urlPath name).opens = []
      ∨ (serveFile fs dir urlPath name).opens = [DirOpen dir name]
      ∨ (serveFile fs dir urlPath name).opens
          = [DirOpen dir name,
             DirOpen dir (stringsTrimSuffix name [Separator] ++ indexPage)] := by
  unfold serveFile
  split_ifs
  · exact Or.inl rfl
  · simp only
    split
    · exact Or.inr (Or.inl rfl)
    · exact Or.inr (Or.inl rfl)
    · split_ifs
      · exact Or.inr (Or.inl rfl)
      · exact Or.inr (Or.inl rfl)
      · right; right
        split <;> rfl
      · exact Or.inr (Or.inl rfl)

theorem fetch_file_route (root : List Char) (fs : OpenFS) (s : List Char) :
    fetch root fs ("/file/".toList ++ s) = { opens := [], result := .redirected }
      ∨ fetch root fs ("/file/".toList ++ s) = FileServer root fs s := by
  have hp : stringsHasPrefix ("/file/".toList ++ s) "/file/".toList = true :=
    (hasPrefix_iff _ _).2 (List.prefix_append _ _)
  have hstrip : StripPrefix "/file/".toList (FileServer root fs)
      { opens := [], result := .failed } ("/file/".toList ++ s) = FileServer root fs s := by
    have hne : ¬ "/file/".toList = [] := by decide
    unfold StripPrefix stringsTrimPrefix
    rw [if_neg hne]
    simp only [hp, if_true]
    rw [List.drop_left, if_pos (by simp; omega)]
  have hlist : ¬ "/file/".toList ++ s = "/api/list".toList := by
    intro e
    have := congrArg (fun l => l.take 2) e
    simp at this
  unfold fetch muxRoute
  simp only
  split_ifs
  · exact Or.inl rfl
  · exact Or.inl rfl
  · exact Or.inr hstrip

theorem fileServer_opens (a b : List (List Char)) (ha : GoodStack a) (hb : GoodStack b)
    (fs : OpenFS) (s : List Char) (hs : Clean (Separator :: s) = render b) :
    (FileServer (render a) fs s).opens = []
      ∨ (FileServer (render a) fs s).opens = [render (a ++ b)]
      ∨ (FileServer (render a) fs s).opens
          = [render (a ++ b), render (a ++ (b ++ ["index.html".toList]))] := by
  have hname : Clean (if stringsHasPrefix s [Separator] = true then s else Separator :: s)
      = render b := by
    by_cases hp : stringsHasPrefix s [Separator] = true
    · rw [if_pos hp]
      obtain ⟨r, rfl⟩ : ∃ r, s = Separator :: r := by
        obtain ⟨r, hr⟩ := (hasPrefix_iff s [Separator]).1 hp
        exact ⟨r, by simpa using hr.symm⟩
      rw [← Clean_cons_sep]
      exact hs
    · rw [if_neg hp]
      exact hs
  have h1 := DirOpen_render a b ha hb (render b) (Clean_slash_render b hb)
  have h2 := DirOpen_render a (b ++ ["index.html".toList]) ha (goodStack_snoc_index hb)
    (stringsTrimSuffix (render b) [Separator] ++ indexPage) (Clean_index_name b hb)
  unfold FileServer
  simp only [hname]
  rw [← h1, ← h2]
  exact serveFile_opens fs (render a) _ (render b)

/-- C9, as stated, fails: for the request `/file/` on a root that holds
`index.html`, the route opens the root, which is the path `safePath("")`
returns, and then opens and serves `/srv/data/index.html`, which is not. -/
theorem fetch_counterexample :
    IsAbs "/srv/data".toList ∧ Clean "/srv/data".toList = "/srv/data".toList
      ∧ safePath "/srv/data".toList [] = .ok "/srv/data".toList
      ∧ fetch "/srv/data".toList indexFS ("/file/".toList ++ [])
        = { opens := ["/srv/data".toList, "/srv/data/index.html".toList],
            result := .served "/srv/data/index.html".toList }
      ∧ "/srv/data/index.html".toList ≠ "/srv/data".toList := by
  decide

/-- C9 (amended): Fetch is confined like List by the normalization the
file-serving primitive itself applies.  For every absolute, lexically clean
root, every path segment `s` and every filesystem state, a `GET` of `/file/s`
is either answered by a redirect that opens nothing or served by
`http.FileServer` with exactly the root as its directory; the first file it
opens is exactly the path `safePath(s)` returns, the only other file it may open
is the path `safePath(s + "/index.html")` returns, and both lie under the
root; `/file/../../etc/passwd` is redirected and opens nothing. -/
theorem fetch_confined (root s : List Char) (fs : OpenFS) (habs : IsAbs root)
    (hclean : Clean root = root) :
    ∃ full idx, safePath root s = .ok full ∧ safePath root (s ++ indexPage) = .ok idx
      ∧ root <+: full ∧ root <+: idx
      ∧ (fetch root fs ("/file/".toList ++ s) = { opens := [], result := .redirected }
          ∨ fetch root fs ("/file/".toList ++ s) = FileServer root fs s)
      ∧ ((fetch root fs ("/file/".toList ++ s)).opens = []
          ∨ (fetch root fs ("/file/".toList ++ s)).opens = [full]
          ∨ (fetch root fs ("/file/".toList ++ s)).opens = [full, idx])
      ∧ fetch root fs "/file/../../etc/passwd".toList
          = { opens := [], result := .redirected } := by
  obtain ⟨a, ha, rfl⟩ := clean_abs_root habs hclean
  obtain ⟨b, hb, hs, hidx⟩ := Clean_with_index s
  have hbi := goodStack_snoc_index hb
  refine ⟨render (a ++ b), render (a ++ (b ++ ["index.html".toList])),
    safePath_render a b ha hb s hs, safePath_render a _ ha hbi _ hidx,
    render_prefix_append a b, render_prefix_append a _, fetch_file_route _ fs s, ?_, ?_⟩
  · rcases fetch_file_route (render a) fs s with h | h
    · rw [h]
      exact Or.inl rfl
    · rw [h]
      exact fileServer_opens a b ha hb fs s hs
  · have hm : muxRoute "/file/../../etc/passwd".toList = .moved "/etc/passwd".toList := by
      decide
    simp only [fetch, hm]

/-- C9 (amended) at the root `/srv/data` and the request `/file/notes.txt`. -/
theorem fetch_confined_witness :
    IsAbs "/srv/data".toList ∧ Clean "/srv/data".toList = "/srv/data".toList
      ∧ fetch "/srv/data".toList indexFS "/file/notes.txt".toList
        = { opens := ["/srv/data/notes.txt".toList],
            result := .served "/srv/data/notes.txt".toList }
      ∧ ∃ full idx, safePath "/srv/data".toList "notes.txt".toList = .ok full
        ∧ safePath "/srv/data".toList ("notes.txt".toList ++ indexPage) = .ok idx
        ∧ "/srv/data".toList <+: full ∧ "/srv/data".toList <+: idx
        ∧ (fetch "/srv/data".toList indexFS ("/file/".toList ++ "notes.txt".toList)
              = { opens := [], result := .redirected }
            ∨ fetch "/srv/data".toList indexFS ("/file/".toList ++ "notes.txt".toList)
              = FileServer "/srv/data".toList indexFS "notes.txt".toList)
        ∧ ((fetch "/srv/data".toList indexFS ("/file/".toList ++ "notes.txt".toList)).opens = []
            ∨ (fetch "/srv/data".toList indexFS ("/file/".toList ++ "notes.txt".toList)).opens
              = [full]
            ∨ (fetch "/srv/data".toList indexFS ("/file/".toList ++ "notes.txt".toList)).opens
              = [full, idx])
        ∧ fetch "/srv/data".toList indexFS "/file/../../etc/passwd".toList
            = { opens := [], result := .redirected } :=
  ⟨by decide, by decide, by decide,
    fetch_confined "/srv/data".toList "notes.txt".toList indexFS (by decide) (by decide)⟩

end Siview
